import Mathlib

/-!
Verification of the URL-shortening service backend
(`BackendTestSubmission/services/urlService.js` and
`BackendTestSubmission/services/validationService.js`).

The registry `urlStorage` is a JavaScript `Map` keyed by shortcode.  A
`Map` is modelled as an association list `List (String × UrlEntry)` with
the `Map` semantics: `set` on a present key replaces the value in place
(keeping the key's insertion position), `set` on an absent key appends at
the end, `get` returns the value at the key, `delete` removes the key,
and iteration follows list order.  JavaScript `Map` key equality on
strings (SameValueZero) is string equality, so plain `=` on `String` is
faithful.  Timestamps (`Date` values, compared with `<`) are modelled as
integers.
-/

/-- One recorded redirect traversal, as assembled by the redirect flow:
timestamp, referrer (or "Direct"), coarse location (or "Unknown") and
user agent (or "Unknown"). -/
structure ClickEvent where
  timestamp : Int
  referrer : String
  location : String
  userAgent : String
  deriving Repr, DecidableEq

/-- One stored URL mapping, as built by the creation flow and stored in
`urlStorage`. -/
structure UrlEntry where
  shortcode : String
  originalUrl : String
  createdAt : Int
  expiresAt : Int
  clicks : List ClickEvent
  deriving Repr, DecidableEq

/-- The state of the module-level `const urlStorage = new Map()`. -/
abbrev UrlStorage := List (String × UrlEntry)

/-- JavaScript `Map.prototype.has`. -/
def mapHas (st : UrlStorage) (k : String) : Bool :=
  st.any (fun p => p.1 = k)

/-- JavaScript `Map.prototype.get` (`undefined` becomes `none`). -/
def mapGet (st : UrlStorage) (k : String) : Option UrlEntry :=
  (st.find? (fun p => p.1 = k)).map Prod.snd

/-- JavaScript `Map.prototype.set`: replace in place when the key is
present, append at the end otherwise. -/
def mapSet (st : UrlStorage) (k : String) (v : UrlEntry) : UrlStorage :=
  match st with
  | [] => [(k, v)]
  | p :: rest => if p.1 = k then (k, v) :: rest else p :: mapSet rest k v

/-- JavaScript `Map.prototype.delete` (a `Map` holds a key at most once,
so removing every pair at the key is the same operation). -/
def mapDelete (st : UrlStorage) (k : String) : UrlStorage :=
  st.filter (fun p => ¬ p.1 = k)

/-- Source: `shortcodeExists` in urlService.js — `urlStorage.has(shortcode)`. -/
def shortcodeExists (st : UrlStorage) (shortcode : String) : Bool :=
  mapHas st shortcode

/-- Source: `storeUrl` in urlService.js —
`urlStorage.set(urlEntry.shortcode, urlEntry)`. -/
def storeUrl (st : UrlStorage) (urlEntry : UrlEntry) : UrlStorage :=
  mapSet st urlEntry.shortcode urlEntry

/-- Source: `getUrl` in urlService.js — `urlStorage.get(shortcode)`. -/
def getUrl (st : UrlStorage) (shortcode : String) : Option UrlEntry :=
  mapGet st shortcode

/-- Source: `recordClick` in urlService.js — fetch the entry; when it
exists, push `clickData` onto its `clicks` array and re-`set` it; when it
does not, do nothing. -/
def recordClick (st : UrlStorage) (shortcode : String) (clickData : ClickEvent) :
    UrlStorage :=
  match mapGet st shortcode with
  | none => st
  | some urlEntry =>
      mapSet st shortcode { urlEntry with clicks := urlEntry.clicks ++ [clickData] }

/-- Source: `cleanupExpiredUrls` in urlService.js.  The source reads
`now = new Date()` itself; here `now` is passed explicitly.  It collects
every shortcode whose entry satisfies `expiresAt < now` (strict), deletes
each collected shortcode, and returns the number collected. -/
def cleanupExpiredUrls (st : UrlStorage) (now : Int) : UrlStorage × Nat :=
  let expiredShortcodes :=
    (st.filter (fun p => p.2.expiresAt < now)).map Prod.fst
  (expiredShortcodes.foldl (fun s k => mapDelete s k) st,
   expiredShortcodes.length)

/-- Modelled from the spec: the creation flow lives in
`controllers/urlController.js`, which is not among the provided sources;
spec §4.3 specifies `insert(entry)`: fail with `Conflict` when
`entry.shortcode` already exists (the registry unchanged), otherwise add
the entry.  The existence probe and the store are the in-source
`shortcodeExists` and `storeUrl`.  The second component is `true` exactly
on the `Conflict` outcome. -/
def insertEntry (st : UrlStorage) (e : UrlEntry) : UrlStorage × Bool :=
  if shortcodeExists st e.shortcode then (st, true) else (storeUrl st e, false)

/-- A registry-mutating call of urlService.js: `storeUrl`, `recordClick`
or `cleanupExpiredUrls` (the latter with its reading of the clock made
explicit). -/
inductive RegOp where
  | store : UrlEntry → RegOp
  | click : String → ClickEvent → RegOp
  | sweep : Int → RegOp

/-- Interpretation of one operation on the registry state. -/
def applyOp (st : UrlStorage) : RegOp → UrlStorage
  | RegOp.store e => storeUrl st e
  | RegOp.click c ev => recordClick st c ev
  | RegOp.sweep now => (cleanupExpiredUrls st now).1

/-- Interpretation of a sequence of operations, oldest first. -/
def applyOps (st : UrlStorage) (ops : List RegOp) : UrlStorage :=
  ops.foldl applyOp st

/-- Operations that leave the mapping of `e` intact: no store under the
same shortcode (no later insert replacing it), no sweep at an instant
past the expiry of `e` (the entry has not expired when swept); clicks are
always allowed. -/
@[reducible] def preservesEntry (e : UrlEntry) : RegOp → Prop
  | RegOp.store f => f.shortcode ≠ e.shortcode
  | RegOp.click _ _ => True
  | RegOp.sweep now => ¬ e.expiresAt < now

/-- Demonstration data reused by the concrete witnesses below. -/
def demoEntry : UrlEntry :=
  { shortcode := "abcd", originalUrl := "https://example.com/a",
    createdAt := 0, expiresAt := 5, clicks := [] }

/-- Demonstration entry under a different shortcode. -/
def demoEntryB : UrlEntry :=
  { shortcode := "wxyz", originalUrl := "https://example.org/b",
    createdAt := 0, expiresAt := 9, clicks := [] }

/-- Demonstration click event. -/
def demoClick : ClickEvent :=
  { timestamp := 1, referrer := "Direct", location := "Unknown",
    userAgent := "Unknown" }

/-- ASCII alphanumeric test — the character class of the source regex
`/^[a-zA-Z0-9]+$/`. -/
def isAlphanumChar (c : Char) : Bool :=
  ('a' ≤ c && c ≤ 'z') || ('A' ≤ c && c ≤ 'Z') || ('0' ≤ c && c ≤ '9')

/-- JavaScript `String.prototype.toLowerCase`, restricted to per-character
ASCII lowering; the source applies it only to strings that already passed
the ASCII-alphanumeric regex, on which the two agree. -/
def jsToLower (s : String) : String :=
  String.mk (s.data.map Char.toLower)

/-- Result shape `{ isValid, error }` of the shortcode validator. -/
structure ValidationResult where
  isValid : Bool
  error : Option String
  deriving Repr, DecidableEq

/-- Reserved-word list of `validateShortcode` in validationService.js. -/
def reservedWords : List String :=
  ["api", "admin", "www", "shorturls", "health", "stats"]

/-- Source: `validateShortcode` in validationService.js.  The argument is
`none` when the request carried no shortcode (`undefined`); JavaScript
falsiness sends the empty string down the same branch.  Lengths are
character counts, which agree with JavaScript's UTF-16 lengths on every
string that can pass the ASCII regex. -/
def validateShortcode (shortcode : Option String) : ValidationResult :=
  match shortcode with
  | none => { isValid := false, error := some "Shortcode cannot be empty" }
  | some s =>
      if s = "" then
        { isValid := false, error := some "Shortcode cannot be empty" }
      else if s.length < 4 ∨ s.length > 10 then
        { isValid := false,
          error := some "Shortcode must be between 4 and 10 characters long" }
      else if ¬ s.data.all isAlphanumChar = true then
        { isValid := false,
          error := some "Shortcode can only contain alphanumeric characters (a-z, A-Z, 0-9)" }
      else if reservedWords.contains (jsToLower s) = true then
        { isValid := false,
          error := some "Shortcode uses a reserved word. Please choose a different shortcode." }
      else { isValid := true, error := none }

/-- Result shape `{ isValid, error, value }` of the validity validator. -/
structure ValidityResult where
  isValid : Bool
  error : Option String
  value : Option Int
  deriving Repr, DecidableEq

/-- Source: `validateValidity` in validationService.js.  The argument is
`none` for `undefined`/`null` (defaulted to 30 minutes).  The source
rejects any non-integer number before the range check; the model takes
the validity as an integer, which covers every input the claims
exercise. -/
def validateValidity (validity : Option Int) : ValidityResult :=
  match validity with
  | none => { isValid := true, error := none, value := some 30 }
  | some v =>
      if v < 1 ∨ v > 43200 then
        { isValid := false,
          error := some "Validity must be between 1 and 43200 minutes (30 days)",
          value := none }
      else { isValid := true, error := none, value := some v }

/-- Character class of the default `nanoid` alphabet — the library's
documented URL-safe alphabet `A-Za-z0-9_-`.  `nanoid` is an external npm
dependency of urlService.js, modelled by its documented contract. -/
def isNanoidChar (c : Char) : Bool :=
  isAlphanumChar c || c = '-' || c = '_'

/-- An admissible output of `nanoid(6)`: exactly six characters drawn
from the URL-safe alphabet. -/
def nanoidOutputOK (s : String) : Bool :=
  s.length = 6 && s.data.all isNanoidChar

/-- Source: `generateShortcode` in urlService.js — repeatedly sample
`nanoid(6)` until the sample is not a key of `urlStorage`.  The random
samples are supplied as an explicit stream `cands`, oldest first; the
result is the first candidate absent from the registry (`none` when the
finite stream is exhausted, standing for the source's unbounded loop not
having terminated yet). -/
def generateShortcode (st : UrlStorage) (cands : List String) : Option String :=
  cands.find? (fun s => !shortcodeExists st s)

/-- Scheme and hostname of a parsed URL, the two fields the validator
reads from the `URL` object. -/
structure URLParts where
  protocol : String
  hostname : String
  deriving Repr, DecidableEq

/-- Whitespace trimmed by JavaScript `String.prototype.trim`, on the
ASCII range the validator's inputs use. -/
def isJsSpace (c : Char) : Bool :=
  c = ' ' || c = '\t' || c = '\n' || c = '\r' || c = '\x0b' || c = '\x0c'

/-- JavaScript `String.prototype.trim`: drop leading and trailing
whitespace, keep the interior untouched. -/
def jsTrim (s : String) : String :=
  String.mk (((s.data.dropWhile isJsSpace).reverse.dropWhile isJsSpace).reverse)

/-- Modelled from the WHATWG `URL` constructor (a platform API, not code
of this repository), on the fragment of behavior the validator
exercises: ASCII tab and newline characters are stripped from the whole
input; an absolute `http`/`https` URL yields its scheme with trailing
colon (`protocol`) and its `hostname` — the authority up to the first
`/`, `?` or `#`, with any userinfo (up to the last `@`) and any port
(after `:`) removed and ASCII letters lowercased.  Inputs outside this
fragment (other schemes, relative references) are modelled as parse
failures; the validator rejects both a parse failure and a non-http(s)
scheme, so the claims settled here are unaffected. -/
def parseURL (raw : String) : Option URLParts :=
  let cs := raw.data.filter (fun c => !(c = '\t' || c = '\n' || c = '\r'))
  let parseAfterScheme := fun (scheme : String) (rest : List Char) =>
    let authority := rest.takeWhile (fun c => !(c = '/' || c = '?' || c = '#'))
    let afterUser :=
      if authority.contains '@' then
        (authority.reverse.takeWhile (fun c => !(c = '@'))).reverse
      else authority
    let host := afterUser.takeWhile (fun c => !(c = ':'))
    if host.isEmpty then none
    else some { protocol := scheme, hostname := String.mk (host.map Char.toLower) }
  if cs.take 8 = "https://".data then parseAfterScheme "https:" (cs.drop 8)
  else if cs.take 7 = "http://".data then parseAfterScheme "http:" (cs.drop 7)
  else none

/-- Character class of the source hostname regex `/^[a-zA-Z0-9.-]+$/`. -/
def isHostChar (c : Char) : Bool :=
  isAlphanumChar c || c = '.' || c = '-'

/-- Result shape `{ isValid, error, normalizedUrl }` of the URL
validator. -/
structure UrlValidation where
  isValid : Bool
  error : Option String
  normalizedUrl : Option String
  deriving Repr, DecidableEq

/-- Source: `validateUrl` in validationService.js: falsy check, trim,
space check on the trimmed string, `new URL` parse, protocol whitelist,
non-empty hostname, hostname character class and dot requirement, and
leading/trailing `-`/`.` rejection; on success the trimmed URL is
returned. -/
def validateUrl (url : String) : UrlValidation :=
  if url = "" then
    { isValid := false, error := some "URL is required", normalizedUrl := none }
  else
    let trimmedUrl := jsTrim url
    if trimmedUrl.data.contains ' ' = true then
      { isValid := false, error := some "URL cannot contain spaces",
        normalizedUrl := none }
    else
      match parseURL trimmedUrl with
      | none =>
          { isValid := false, error := some "Invalid URL format",
            normalizedUrl := none }
      | some urlObj =>
          if ¬ (urlObj.protocol = "http:" ∨ urlObj.protocol = "https:") then
            { isValid := false,
              error := some "URL must use http:// or https:// protocol",
              normalizedUrl := none }
          else if urlObj.hostname = "" then
            { isValid := false,
              error := some "URL must have a valid hostname",
              normalizedUrl := none }
          else if ¬ urlObj.hostname.data.all isHostChar = true ∨
              ¬ urlObj.hostname.data.contains '.' = true then
            { isValid := false,
              error := some "URL must have a valid domain name",
              normalizedUrl := none }
          else if urlObj.hostname.data.head? = some '-' ∨
              urlObj.hostname.data.getLast? = some '-' ∨
              urlObj.hostname.data.head? = some '.' ∨
              urlObj.hostname.data.getLast? = some '.' then
            { isValid := false,
              error := some "URL domain name format is invalid",
              normalizedUrl := none }
          else
            { isValid := true, error := none, normalizedUrl := some trimmedUrl }

section MapLemmas

theorem mapGet_eq_none_iff (st : UrlStorage) (k : String) :
    mapGet st k = none ↔ mapHas st k = false := by
  induction st with
  | nil => simp [mapGet, mapHas]
  | cons p rest ih =>
      by_cases h : p.1 = k
      · simp [mapGet, mapHas, List.find?, h]
      · simp only [mapGet, mapHas, List.find?, List.any_cons] at ih ⊢
        simp [h, ih]

theorem mapGet_mapSet_self (st : UrlStorage) (k : String) (v : UrlEntry) :
    mapGet (mapSet st k v) k = some v := by
  induction st with
  | nil => simp [mapSet, mapGet, List.find?]
  | cons p rest ih =>
      by_cases h : p.1 = k
      · simp [mapSet, mapGet, List.find?, h]
      · simpa [mapSet, mapGet, List.find?, h] using ih

theorem mapGet_mapSet_ne (st : UrlStorage) (k k' : String) (v : UrlEntry)
    (hne : k' ≠ k) : mapGet (mapSet st k v) k' = mapGet st k' := by
  have hkk : k ≠ k' := fun h => hne h.symm
  induction st with
  | nil => simp [mapSet, mapGet, List.find?, hkk]
  | cons p rest ih =>
      by_cases h : p.1 = k
      · subst h
        simp [mapSet, mapGet, List.find?, hkk, hne]
      · by_cases h' : p.1 = k'
        · subst h'
          simp [mapSet, mapGet, List.find?, h]
        · simpa [mapSet, mapGet, List.find?, h, h'] using ih

theorem keys_mapSet_of_has (st : UrlStorage) (k : String) (v : UrlEntry)
    (hhas : mapHas st k = true) :
    (mapSet st k v).map Prod.fst = st.map Prod.fst := by
  induction st with
  | nil => simp [mapHas] at hhas
  | cons p rest ih =>
      by_cases h : p.1 = k
      · simp [mapSet, h]
      · have hr : mapHas rest k = true := by
          simpa [mapHas, h] using hhas
        simp [mapSet, h, ih hr]

theorem keys_mapSet_of_not (st : UrlStorage) (k : String) (v : UrlEntry)
    (hhas : mapHas st k = false) :
    (mapSet st k v).map Prod.fst = st.map Prod.fst ++ [k] := by
  induction st with
  | nil => simp [mapSet]
  | cons p rest ih =>
      have h : ¬ p.1 = k := by
        intro h
        simp [mapHas, h] at hhas
      have hr : mapHas rest k = false := by
        simpa [mapHas, h] using hhas
      simp [mapSet, h, ih hr]

theorem mapHas_iff_mem_keys (st : UrlStorage) (k : String) :
    mapHas st k = true ↔ k ∈ st.map Prod.fst := by
  constructor
  · intro h
    rcases List.any_eq_true.mp h with ⟨p, hp, hpk⟩
    exact List.mem_map.mpr ⟨p, hp, of_decide_eq_true hpk⟩
  · intro h
    rcases List.mem_map.mp h with ⟨p, hp, hpk⟩
    exact List.any_eq_true.mpr ⟨p, hp, decide_eq_true hpk⟩

theorem mapGet_mem (st : UrlStorage) (c : String) (e : UrlEntry)
    (h : mapGet st c = some e) : (c, e) ∈ st := by
  unfold mapGet at h
  cases hf : st.find? (fun p => p.1 = c) with
  | none => simp [hf] at h
  | some p =>
      have hp := List.find?_some hf
      have hmem : p ∈ st := List.mem_of_find?_eq_some hf
      have hk : p.1 = c := of_decide_eq_true hp
      have he : p.2 = e := by simp [hf] at h; exact h
      have : p = (c, e) := by
        cases p
        simp only [Prod.mk.injEq]
        exact ⟨hk, he⟩
      exact this ▸ hmem

theorem mem_mapSet (st : UrlStorage) (k : String) (v : UrlEntry)
    (q : String × UrlEntry) (hq : q ∈ mapSet st k v) : q = (k, v) ∨ q ∈ st := by
  induction st with
  | nil => simpa [mapSet] using hq
  | cons p rest ih =>
      by_cases h : p.1 = k
      · rcases (by simpa [mapSet, h] using hq : q = (k, v) ∨ q ∈ rest) with h1 | h1
        · exact Or.inl h1
        · exact Or.inr (List.mem_cons_of_mem p h1)
      · rcases (by simpa [mapSet, h] using hq : q = p ∨ q ∈ mapSet rest k v) with h1 | h1
        · exact Or.inr (h1 ▸ List.mem_cons_self p rest)
        · rcases ih h1 with h2 | h2
          · exact Or.inl h2
          · exact Or.inr (List.mem_cons_of_mem p h2)

end MapLemmas

/-- The registry's keys are pairwise distinct — automatic for a
JavaScript `Map`, stated explicitly for the association-list model. -/
@[reducible] def keysNodup (st : UrlStorage) : Prop :=
  (st.map Prod.fst).Nodup

/-- Every stored pair's value carries the pair's key as its `shortcode`
field (storeUrl keys each entry by its own shortcode). -/
@[reducible] def keyMatchesCode (st : UrlStorage) : Prop :=
  ∀ p ∈ st, p.2.shortcode = p.1

/-- The registry invariant: distinct keys, and each value keyed by its
own shortcode. -/
@[reducible] def registryInv (st : UrlStorage) : Prop :=
  keysNodup st ∧ keyMatchesCode st

section InvariantLemmas

theorem keysNodup_mapSet (st : UrlStorage) (k : String) (v : UrlEntry)
    (h : keysNodup st) : keysNodup (mapSet st k v) := by
  unfold keysNodup at *
  cases hhas : mapHas st k with
  | true => rw [keys_mapSet_of_has st k v hhas]; exact h
  | false =>
      rw [keys_mapSet_of_not st k v hhas]
      have hnot : k ∉ st.map Prod.fst := fun hmem =>
        by simp [(mapHas_iff_mem_keys st k).mpr hmem] at hhas
      simp only [List.nodup_append, List.nodup_cons, List.not_mem_nil,
        not_false_iff, List.nodup_nil, and_true, true_and]
      refine ⟨h, ?_⟩
      intro a ha hb
      simp only [List.mem_singleton] at hb
      exact hnot (hb ▸ ha)

theorem keyMatchesCode_mapSet (st : UrlStorage) (k : String) (v : UrlEntry)
    (hv : v.shortcode = k) (h : keyMatchesCode st) :
    keyMatchesCode (mapSet st k v) := by
  intro q hq
  rcases mem_mapSet st k v q hq with rfl | hq2
  · exact hv
  · exact h q hq2

theorem keyMatchesCode_sublist {st st' : UrlStorage}
    (hsub : st'.Sublist st) (h : keyMatchesCode st) : keyMatchesCode st' :=
  fun p hp => h p (hsub.mem hp)

theorem keysNodup_sublist {st st' : UrlStorage}
    (hsub : st'.Sublist st) (h : keysNodup st) : keysNodup st' :=
  (hsub.map Prod.fst).nodup h

theorem foldl_mapDelete_sublist (keys : List String) :
    ∀ st : UrlStorage, (keys.foldl (fun s k => mapDelete s k) st).Sublist st := by
  induction keys with
  | nil => intro st; simp
  | cons k ks ih =>
      intro st
      exact (ih (mapDelete st k)).trans (List.filter_sublist st)

theorem cleanup_fst_sublist (st : UrlStorage) (now : Int) :
    ((cleanupExpiredUrls st now).1).Sublist st :=
  foldl_mapDelete_sublist _ st

theorem registryInv_empty : registryInv [] := by
  constructor
  · simp [keysNodup]
  · intro p hp
    simp at hp

theorem registryInv_storeUrl (st : UrlStorage) (e : UrlEntry)
    (h : registryInv st) : registryInv (storeUrl st e) :=
  ⟨keysNodup_mapSet st e.shortcode e h.1,
   keyMatchesCode_mapSet st e.shortcode e rfl h.2⟩

theorem mapGet_shortcode_eq (st : UrlStorage) (c : String) (e : UrlEntry)
    (h : keyMatchesCode st) (hg : mapGet st c = some e) : e.shortcode = c :=
  h (c, e) (mapGet_mem st c e hg)

theorem registryInv_recordClick (st : UrlStorage) (c : String) (ev : ClickEvent)
    (h : registryInv st) : registryInv (recordClick st c ev) := by
  unfold recordClick
  cases hg : mapGet st c with
  | none => exact h
  | some e =>
      have hs : e.shortcode = c := mapGet_shortcode_eq st c e h.2 hg
      exact ⟨keysNodup_mapSet st c _ h.1,
        keyMatchesCode_mapSet st c _ hs h.2⟩

theorem registryInv_cleanup (st : UrlStorage) (now : Int)
    (h : registryInv st) : registryInv (cleanupExpiredUrls st now).1 :=
  ⟨keysNodup_sublist (cleanup_fst_sublist st now) h.1,
   keyMatchesCode_sublist (cleanup_fst_sublist st now) h.2⟩

theorem key_injective (st : UrlStorage) (h : keysNodup st)
    {p q : String × UrlEntry} (hp : p ∈ st) (hq : q ∈ st) (hk : p.1 = q.1) :
    p = q := by
  induction st with
  | nil => simp at hp
  | cons a rest ih =>
      unfold keysNodup at h
      simp only [List.map_cons, List.nodup_cons] at h
      rcases List.mem_cons.mp hp with rfl | hp2
      · rcases List.mem_cons.mp hq with rfl | hq2
        · rfl
        · exact absurd (hk ▸ List.mem_map_of_mem Prod.fst hq2) h.1
      · rcases List.mem_cons.mp hq with rfl | hq2
        · exact absurd (hk ▸ List.mem_map_of_mem Prod.fst hp2) h.1
        · exact ih h.2 hp2 hq2

end InvariantLemmas

section CleanupLemmas

theorem foldl_mapDelete_eq_filter (keys : List String) :
    ∀ st : UrlStorage,
      keys.foldl (fun s k => mapDelete s k) st =
        st.filter (fun p => !keys.any (fun k => p.1 = k)) := by
  induction keys with
  | nil =>
      intro st
      simp
  | cons k ks ih =>
      intro st
      have step : ks.foldl (fun s k => mapDelete s k) (mapDelete st k) =
          (mapDelete st k).filter (fun p => !ks.any (fun k2 => p.1 = k2)) :=
        ih (mapDelete st k)
      rw [List.foldl_cons, step, mapDelete, List.filter_filter]
      apply List.filter_congr
      intro p _
      simp only [List.any_cons, Bool.not_or, decide_not]
      cases hd : decide (p.1 = k) <;> simp

theorem mapGet_filter (st : UrlStorage) (c : String) (e : UrlEntry)
    (f : String × UrlEntry → Bool) (hg : mapGet st c = some e)
    (hf : f (c, e) = true) : mapGet (st.filter f) c = some e := by
  induction st with
  | nil => simp [mapGet] at hg
  | cons p rest ih =>
      by_cases h : p.1 = c
      · have hpe : p = (c, e) := by
          have he : p.2 = e := by
            simpa [mapGet, List.find?, h] using hg
          cases p
          simp only [Prod.mk.injEq]
          exact ⟨h, he⟩
        subst hpe
        simp [mapGet, List.find?, hf]
      · have hg2 : mapGet rest c = some e := by
          simpa [mapGet, List.find?, h] using hg
        cases hfp : f p with
        | true => simpa [mapGet, List.find?, hfp, h] using ih hg2
        | false => simpa [mapGet, List.find?, hfp] using ih hg2

theorem cleanup_fst_eq_filter (st : UrlStorage) (now : Int)
    (h : keysNodup st) :
    (cleanupExpiredUrls st now).1 =
      st.filter (fun p => !decide (p.2.expiresAt < now)) := by
  unfold cleanupExpiredUrls
  simp only [foldl_mapDelete_eq_filter]
  apply List.filter_congr
  intro p hp
  have hiff :
      ((st.filter (fun q => decide (q.2.expiresAt < now))).map Prod.fst).any
          (fun k => p.1 = k) = decide (p.2.expiresAt < now) := by
    apply Bool.eq_iff_iff.mpr
    constructor
    · intro hany
      rcases List.any_eq_true.mp hany with ⟨k, hk, hpk⟩
      rcases List.mem_map.mp hk with ⟨q, hq, rfl⟩
      rcases List.mem_filter.mp hq with ⟨hqmem, hqexp⟩
      have : p = q :=
        key_injective st h hp hqmem (of_decide_eq_true hpk)
      exact this ▸ hqexp
    · intro hexp
      refine List.any_eq_true.mpr ⟨p.1, ?_, by simp⟩
      exact List.mem_map_of_mem Prod.fst (List.mem_filter.mpr ⟨hp, hexp⟩)
  rw [hiff]

theorem cleanup_snd_eq_countP (st : UrlStorage) (now : Int) :
    (cleanupExpiredUrls st now).2 =
      st.countP (fun p => decide (p.2.expiresAt < now)) := by
  simp [cleanupExpiredUrls, List.countP_eq_length_filter]

theorem getUrl_cleanup_of_live (st : UrlStorage) (c : String) (e : UrlEntry)
    (now : Int) (h : keysNodup st) (hg : getUrl st c = some e)
    (hl : ¬ e.expiresAt < now) :
    getUrl (cleanupExpiredUrls st now).1 c = some e := by
  unfold getUrl at *
  rw [cleanup_fst_eq_filter st now h]
  exact mapGet_filter st c e _ hg (by simp [hl])

theorem getUrl_cleanup_of_expired (st : UrlStorage) (c : String) (e : UrlEntry)
    (now : Int) (hg : getUrl st c = some e) (hx : e.expiresAt < now) :
    getUrl (cleanupExpiredUrls st now).1 c = none := by
  unfold getUrl at *
  unfold cleanupExpiredUrls
  simp only [foldl_mapDelete_eq_filter]
  apply (mapGet_eq_none_iff _ _).mpr
  apply Bool.eq_false_iff.mpr
  intro hany
  rcases List.any_eq_true.mp hany with ⟨q, hq, hqc⟩
  rcases List.mem_filter.mp hq with ⟨_, hkeep⟩
  have hqc2 : q.1 = c := of_decide_eq_true hqc
  have hcmem : c ∈ (st.filter (fun p => decide (p.2.expiresAt < now))).map Prod.fst := by
    refine List.mem_map_of_mem Prod.fst (List.mem_filter.mpr ⟨mapGet_mem st c e hg, ?_⟩)
    simpa using hx
  have : (((st.filter (fun p => decide (p.2.expiresAt < now))).map Prod.fst).any
      (fun k => q.1 = k)) = true :=
    List.any_eq_true.mpr ⟨c, hcmem, by simp [hqc2]⟩
  simp [this] at hkeep

end CleanupLemmas

theorem registryInv_applyOp (st : UrlStorage) (op : RegOp)
    (h : registryInv st) : registryInv (applyOp st op) := by
  cases op with
  | store e => exact registryInv_storeUrl st e h
  | click c ev => exact registryInv_recordClick st c ev h
  | sweep now => exact registryInv_cleanup st now h

theorem applyOp_preserves_live (e : UrlEntry) (op : RegOp) (st : UrlStorage)
    (hinv : registryInv st) (hop : preservesEntry e op)
    (hlive : ∃ e2, getUrl st e.shortcode = some e2 ∧
      e2.originalUrl = e.originalUrl ∧ e2.expiresAt = e.expiresAt) :
    ∃ e2, getUrl (applyOp st op) e.shortcode = some e2 ∧
      e2.originalUrl = e.originalUrl ∧ e2.expiresAt = e.expiresAt := by
  rcases hlive with ⟨e2, hg, hu, hx⟩
  cases op with
  | store f =>
      refine ⟨e2, ?_, hu, hx⟩
      show mapGet (mapSet st f.shortcode f) e.shortcode = some e2
      rw [mapGet_mapSet_ne st f.shortcode e.shortcode f (Ne.symm hop)]
      exact hg
  | click c2 ev =>
      show ∃ e2, getUrl (recordClick st c2 ev) e.shortcode = some e2 ∧ _
      unfold recordClick
      cases hg2 : mapGet st c2 with
      | none => exact ⟨e2, hg, hu, hx⟩
      | some e3 =>
          by_cases hc : c2 = e.shortcode
          · have he32 : e3 = e2 := by
              have h4 : mapGet st c2 = some e2 := by rw [hc]; exact hg
              rw [hg2] at h4
              exact Option.some.inj h4
            refine ⟨{ e3 with clicks := e3.clicks ++ [ev] }, ?_, ?_, ?_⟩
            · show mapGet (mapSet st c2 _) e.shortcode = _
              rw [hc]
              exact mapGet_mapSet_self st e.shortcode _
            · simp [he32, hu]
            · simp [he32, hx]
          · refine ⟨e2, ?_, hu, hx⟩
            show mapGet (mapSet st c2 _) e.shortcode = some e2
            rw [mapGet_mapSet_ne st c2 e.shortcode _ (Ne.symm hc)]
            exact hg
  | sweep now =>
      refine ⟨e2, ?_, hu, hx⟩
      refine getUrl_cleanup_of_live st e.shortcode e2 now hinv.1 hg ?_
      rw [hx]
      exact hop

theorem applyOps_preserves_live (e : UrlEntry) (ops : List RegOp) :
    ∀ st : UrlStorage, registryInv st →
      (∀ op ∈ ops, preservesEntry e op) →
      (∃ e2, getUrl st e.shortcode = some e2 ∧
        e2.originalUrl = e.originalUrl ∧ e2.expiresAt = e.expiresAt) →
      ∃ e2, getUrl (applyOps st ops) e.shortcode = some e2 ∧
        e2.originalUrl = e.originalUrl ∧ e2.expiresAt = e.expiresAt := by
  induction ops with
  | nil =>
      intro st _ _ hlive
      simpa [applyOps] using hlive
  | cons op ops ih =>
      intro st hinv hops hlive
      have h1 := applyOp_preserves_live e op st hinv
        (hops op (List.mem_cons_self op ops)) hlive
      have h2 := registryInv_applyOp st op hinv
      have h3 := ih (applyOp st op) h2
        (fun o ho => hops o (List.mem_cons_of_mem op ho)) h1
      simpa [applyOps] using h3

/-- C1: for every registry state and entry `e`, `insertEntry` fails with
the conflict outcome exactly when an entry at `e.shortcode` is already
present, leaving the registry unchanged (the existing entry is not
replaced); only when no such entry exists is `e` added, and the addition
touches no other shortcode. -/
theorem insertEntry_conflict_spec (st : UrlStorage) (e : UrlEntry) :
    (mapHas st e.shortcode = true → insertEntry st e = (st, true)) ∧
    (mapHas st e.shortcode = false →
      insertEntry st e = (storeUrl st e, false) ∧
      getUrl (storeUrl st e) e.shortcode = some e ∧
      ∀ c, c ≠ e.shortcode → getUrl (storeUrl st e) c = getUrl st c) := by
  constructor
  · intro h
    simp [insertEntry, shortcodeExists, h]
  · intro h
    refine ⟨by simp [insertEntry, shortcodeExists, h], ?_, ?_⟩
    · exact mapGet_mapSet_self st e.shortcode e
    · intro c hc
      exact mapGet_mapSet_ne st e.shortcode c e hc

/-- Witness for C1 at concrete inputs: inserting `demoEntry` into a
registry already holding its shortcode is a conflict that leaves the
registry unchanged, and inserting into the empty registry stores it. -/
theorem insertEntry_conflict_spec_witness :
    insertEntry [("abcd", demoEntryB)] demoEntry = ([("abcd", demoEntryB)], true) ∧
    insertEntry [] demoEntry = (storeUrl [] demoEntry, false) :=
  ⟨(insertEntry_conflict_spec [("abcd", demoEntryB)] demoEntry).1 (by decide),
   ((insertEntry_conflict_spec [] demoEntry).2 (by decide)).1⟩

/-- C2 counterexample: the entry expires at instant 5, yet a lookup
performed at instant 10 with no sweep in between still returns the
stored entry — the lookup succeeds as if the code were live, refuting
the claim that it never does. -/
theorem getUrl_expired_counterexample :
    demoEntry.expiresAt < 10 ∧
    getUrl [("abcd", demoEntry)] "abcd" = some demoEntry := by
  constructor
  · decide
  · rfl

/-- C2 amended: `getUrl` performs no expiry check of its own; an expired
entry stops being returned only once `cleanupExpiredUrls` runs at an
instant past its `expiresAt`, after which lookups on its code yield
none. -/
theorem getUrl_expired_after_sweep (st : UrlStorage) (c : String)
    (e : UrlEntry) (now : Int) (hg : getUrl st c = some e)
    (hx : e.expiresAt < now) :
    getUrl (cleanupExpiredUrls st now).1 c = none :=
  getUrl_cleanup_of_expired st c e now hg hx

/-- Witness for the amended C2 at concrete inputs: sweeping at instant
10 removes the entry that expired at instant 5, and the subsequent
lookup fails. -/
theorem getUrl_expired_after_sweep_witness :
    getUrl (cleanupExpiredUrls [("abcd", demoEntry)] 10).1 "abcd" = none :=
  getUrl_expired_after_sweep [("abcd", demoEntry)] "abcd" demoEntry 10
    (by decide) (by decide)

/-- C3: the uniqueness invariant — pairwise-distinct keys, each entry
keyed by its own shortcode — holds for the empty registry, is preserved
by `storeUrl`, `recordClick` and `cleanupExpiredUrls` (regardless of
logically expired entries still present), and implies that at most one
entry of the registry carries any given shortcode and that the entry
found under a shortcode carries that shortcode. -/
theorem registry_uniqueness_invariant :
    registryInv [] ∧
    (∀ st e, registryInv st → registryInv (storeUrl st e)) ∧
    (∀ st c ev, registryInv st → registryInv (recordClick st c ev)) ∧
    (∀ st now, registryInv st → registryInv (cleanupExpiredUrls st now).1) ∧
    (∀ st c, registryInv st →
      st.countP (fun p => decide (p.2.shortcode = c)) ≤ 1) ∧
    (∀ st c e, registryInv st → getUrl st c = some e → e.shortcode = c) := by
  refine ⟨registryInv_empty, registryInv_storeUrl, registryInv_recordClick,
    registryInv_cleanup, ?_, ?_⟩
  · intro st c h
    have h1 : st.countP (fun p => decide (p.2.shortcode = c)) =
        st.countP (fun p => decide (p.1 = c)) := by
      apply List.countP_congr
      intro p hp
      simp [h.2 p hp]
    have h2 : st.countP (fun p => decide (p.1 = c)) =
        (st.map Prod.fst).countP (fun x => decide (x = c)) :=
      (List.countP_map (fun x => decide (x = c)) Prod.fst st).symm
    have h3 : (st.map Prod.fst).countP (fun x => decide (x = c)) =
        (st.map Prod.fst).count c := by
      rw [List.count_eq_countP]
      apply List.countP_congr
      intro x _
      simp [beq_iff_eq]
    rw [h1, h2, h3]
    exact List.nodup_iff_count_le_one.mp h.1 c
  · intro st c e h hg
    exact mapGet_shortcode_eq st c e h.2 hg

/-- Witness for C3 at concrete inputs: the invariant holds for a
one-entry registry and survives storing a second entry, and the count of
entries carrying the shortcode "abcd" is at most one. -/
theorem registry_uniqueness_invariant_witness :
    registryInv (storeUrl [("abcd", demoEntry)] demoEntryB) ∧
    ([("abcd", demoEntry)] : UrlStorage).countP
      (fun p => decide (p.2.shortcode = "abcd")) ≤ 1 :=
  ⟨registry_uniqueness_invariant.2.1 [("abcd", demoEntry)] demoEntryB (by decide),
   registry_uniqueness_invariant.2.2.2.2.1 [("abcd", demoEntry)] "abcd" (by decide)⟩

/-- C4: `cleanupExpiredUrls` at instant `now` keeps exactly the entries
whose `expiresAt` is not strictly earlier than `now`, in order and
unchanged, and returns the number of entries whose `expiresAt` is
strictly earlier than `now` — the number removed. -/
theorem cleanupExpiredUrls_spec (st : UrlStorage) (now : Int)
    (h : keysNodup st) :
    (cleanupExpiredUrls st now).1 =
      st.filter (fun p => !decide (p.2.expiresAt < now)) ∧
    (cleanupExpiredUrls st now).2 =
      st.countP (fun p => decide (p.2.expiresAt < now)) :=
  ⟨cleanup_fst_eq_filter st now h, cleanup_snd_eq_countP st now⟩

/-- Witness for C4 at concrete inputs: sweeping a two-entry registry at
instant 7 removes the entry expired at 5, keeps the entry expiring at 9,
and reports one removal. -/
theorem cleanupExpiredUrls_spec_witness :
    (cleanupExpiredUrls [("abcd", demoEntry), ("wxyz", demoEntryB)] 7).1 =
      [("wxyz", demoEntryB)] ∧
    (cleanupExpiredUrls [("abcd", demoEntry), ("wxyz", demoEntryB)] 7).2 = 1 := by
  have h := cleanupExpiredUrls_spec
    [("abcd", demoEntry), ("wxyz", demoEntryB)] 7 (by decide)
  refine ⟨?_, ?_⟩
  · rw [h.1]; decide
  · rw [h.2]; decide

/-- C5: `recordClick` is a silent no-op on an absent shortcode; on a
present one it appends the click event as the new last element of that
entry's click sequence, changes no other field of the entry, and leaves
every other shortcode's lookup unchanged. -/
theorem recordClick_spec (st : UrlStorage) (c : String) (ev : ClickEvent) :
    (mapGet st c = none → recordClick st c ev = st) ∧
    (∀ e, mapGet st c = some e →
      getUrl (recordClick st c ev) c =
        some { e with clicks := e.clicks ++ [ev] } ∧
      ∀ c2, c2 ≠ c → getUrl (recordClick st c ev) c2 = getUrl st c2) := by
  constructor
  · intro h
    unfold recordClick
    rw [h]
  · intro e he
    unfold recordClick
    rw [he]
    constructor
    · exact mapGet_mapSet_self st c _
    · intro c2 hc2
      exact mapGet_mapSet_ne st c c2 _ hc2

/-- Witness for C5 at concrete inputs: recording a click on an absent
code is a no-op, and recording one on "abcd" appends it while leaving
"wxyz" untouched. -/
theorem recordClick_spec_witness :
    recordClick [("abcd", demoEntry)] "none" demoClick = [("abcd", demoEntry)] ∧
    getUrl (recordClick [("abcd", demoEntry), ("wxyz", demoEntryB)] "abcd" demoClick)
        "abcd" = some { demoEntry with clicks := demoEntry.clicks ++ [demoClick] } ∧
    getUrl (recordClick [("abcd", demoEntry), ("wxyz", demoEntryB)] "abcd" demoClick)
        "wxyz" = getUrl [("abcd", demoEntry), ("wxyz", demoEntryB)] "wxyz" :=
  ⟨(recordClick_spec [("abcd", demoEntry)] "none" demoClick).1 (by decide),
   ((recordClick_spec [("abcd", demoEntry), ("wxyz", demoEntryB)] "abcd"
      demoClick).2 demoEntry (by decide)).1,
   ((recordClick_spec [("abcd", demoEntry), ("wxyz", demoEntryB)] "abcd"
      demoClick).2 demoEntry (by decide)).2 "wxyz" (by decide)⟩

/-- C8: after `storeUrl` of entry `e`, any sequence of further registry
operations that never stores under `e.shortcode`, and never sweeps at an
instant past `e.expiresAt`, leaves a lookup on `e.shortcode` returning
exactly the original URL of `e`. -/
theorem storeUrl_getUrl_roundtrip (st : UrlStorage) (e : UrlEntry)
    (ops : List RegOp) (hinv : registryInv st)
    (hops : ∀ op ∈ ops, preservesEntry e op) :
    ∃ e2, getUrl (applyOps (storeUrl st e) ops) e.shortcode = some e2 ∧
      e2.originalUrl = e.originalUrl := by
  have hlive : ∃ e2, getUrl (storeUrl st e) e.shortcode = some e2 ∧
      e2.originalUrl = e.originalUrl ∧ e2.expiresAt = e.expiresAt :=
    ⟨e, mapGet_mapSet_self st e.shortcode e, rfl, rfl⟩
  rcases applyOps_preserves_live e ops (storeUrl st e)
    (registryInv_storeUrl st e hinv) hops hlive with ⟨e2, h1, h2, _⟩
  exact ⟨e2, h1, h2⟩

/-- Witness for C8 at concrete inputs: store `demoEntry`, then click its
code, store a different code and sweep before its expiry — the lookup
still yields its original URL. -/
theorem storeUrl_getUrl_roundtrip_witness :
    ∃ e2, getUrl (applyOps (storeUrl [] demoEntry)
        [RegOp.click "abcd" demoClick, RegOp.store demoEntryB, RegOp.sweep 3])
      demoEntry.shortcode = some e2 ∧
      e2.originalUrl = demoEntry.originalUrl := by
  refine storeUrl_getUrl_roundtrip [] demoEntry
    [RegOp.click "abcd" demoClick, RegOp.store demoEntryB, RegOp.sweep 3]
    (by decide) ?_
  intro op hop
  simp only [List.mem_cons, List.not_mem_nil, or_false] at hop
  rcases hop with rfl | rfl | rfl
  · exact trivial
  · exact (by decide : demoEntryB.shortcode ≠ demoEntry.shortcode)
  · exact (by decide : ¬ demoEntry.expiresAt < 3)

/-- C6 counterexample: an absent shortcode — and likewise the empty
string, which JavaScript falsiness sends down the same branch — is
rejected by `validateShortcode` with "Shortcode cannot be empty",
refuting the claim that validation succeeds in the auto-generate case. -/
theorem validateShortcode_none_counterexample :
    (validateShortcode none).isValid = false ∧
    (validateShortcode (some "")).isValid = false := by
  exact ⟨by decide, by decide⟩

/-- C6 amended: `validateShortcode` treats an absent or empty shortcode
as invalid with the error "Shortcode cannot be empty"; the auto-generate
case must therefore be handled by the caller before invoking it, not by
the validator itself. -/
theorem validateShortcode_none_rejected :
    validateShortcode none =
      { isValid := false, error := some "Shortcode cannot be empty" } ∧
    validateShortcode (some "") =
      { isValid := false, error := some "Shortcode cannot be empty" } := by
  exact ⟨by decide, by decide⟩

/-- C7 counterexample: "ab_c-0" is an admissible `nanoid(6)` sample, the
generator returns it on an empty registry, and storing an entry under it
puts a shortcode in the registry that is not purely alphanumeric —
refuting the claim that every stored shortcode is alphanumeric. -/
theorem generateShortcode_alnum_counterexample :
    nanoidOutputOK "ab_c-0" = true ∧
    generateShortcode [] ["ab_c-0"] = some "ab_c-0" ∧
    "ab_c-0".data.all isAlphanumChar = false ∧
    getUrl (storeUrl [] { demoEntry with shortcode := "ab_c-0" }) "ab_c-0" =
      some { demoEntry with shortcode := "ab_c-0" } := by
  refine ⟨by decide, by decide, by decide, by decide⟩

/-- C7 amended: a custom code accepted by `validateShortcode` is 4–10
characters and purely alphanumeric, while a code produced by
`generateShortcode` from admissible `nanoid(6)` samples is exactly 6
characters over the URL-safe alphabet `A-Za-z0-9_-` (so 4–10 characters
long, but not necessarily alphanumeric) and absent from the registry it
was generated against. -/
theorem shortcode_alphabet_spec :
    (∀ s : String, (validateShortcode (some s)).isValid = true →
      4 ≤ s.length ∧ s.length ≤ 10 ∧ s.data.all isAlphanumChar = true) ∧
    (∀ (st : UrlStorage) (cands : List String) (s : String),
      (∀ c ∈ cands, nanoidOutputOK c = true) →
      generateShortcode st cands = some s →
      s.length = 6 ∧ s.data.all isNanoidChar = true ∧
      shortcodeExists st s = false) := by
  constructor
  · intro s h
    by_cases h0 : s = ""
    · rw [h0] at h
      exact absurd h (by decide)
    by_cases h1 : s.length < 4 ∨ s.length > 10
    · simp [validateShortcode, h0, h1] at h
    by_cases h2 : s.data.all isAlphanumChar = true
    · rcases not_or.mp h1 with ⟨ha, hb⟩
      refine ⟨by omega, by omega, h2⟩
    · simp [validateShortcode, h0, h1, h2] at h
  · intro st cands s hc hfind
    have hmem : s ∈ cands := List.mem_of_find?_eq_some hfind
    have hpred := List.find?_some hfind
    have h6 : s.length = 6 ∧ s.data.all isNanoidChar = true := by
      simpa [nanoidOutputOK] using hc s hmem
    refine ⟨h6.1, h6.2, ?_⟩
    simpa using hpred

/-- Witness for the amended C7 at concrete inputs: the accepted custom
code "abcd" is 4 alphanumeric characters, and the generated "ab_c-0" is
6 URL-safe characters absent from the empty registry. -/
theorem shortcode_alphabet_spec_witness :
    (4 ≤ ("abcd" : String).length ∧ ("abcd" : String).length ≤ 10 ∧
      "abcd".data.all isAlphanumChar = true) ∧
    (("ab_c-0" : String).length = 6 ∧ "ab_c-0".data.all isNanoidChar = true ∧
      shortcodeExists [] "ab_c-0" = false) :=
  ⟨shortcode_alphabet_spec.1 "abcd" (by decide),
   shortcode_alphabet_spec.2 [] ["ab_c-0"] "ab_c-0"
     (by decide) (by decide)⟩


/-- C9: boundary behavior of the validators — every shortcode of length
3 or 11 is rejected, every alphanumeric shortcode of length 4 or 10 is
accepted (no reserved word has such a length), and validity 0 and 43201
are rejected while 1 and 43200 are accepted. -/
theorem validation_boundaries :
    (∀ s : String, s.length = 3 → (validateShortcode (some s)).isValid = false) ∧
    (∀ s : String, s.length = 11 → (validateShortcode (some s)).isValid = false) ∧
    (∀ s : String, s.length = 4 → s.data.all isAlphanumChar = true →
      (validateShortcode (some s)).isValid = true) ∧
    (∀ s : String, s.length = 10 → s.data.all isAlphanumChar = true →
      (validateShortcode (some s)).isValid = true) ∧
    (validateValidity (some 0)).isValid = false ∧
    (validateValidity (some 43201)).isValid = false ∧
    (validateValidity (some 1)).isValid = true ∧
    (validateValidity (some 43200)).isValid = true := by
  refine ⟨?_, ?_, ?_, ?_, by decide, by decide, by decide, by decide⟩
  · intro s hlen
    have hne : ¬ s = "" := by
      intro h
      rw [h] at hlen
      exact absurd hlen (by decide)
    simp [validateShortcode, hne, hlen]
  · intro s hlen
    have hne : ¬ s = "" := by
      intro h
      rw [h] at hlen
      exact absurd hlen (by decide)
    simp [validateShortcode, hne, hlen]
  · intro s hlen halnum
    have hne : ¬ s = "" := by
      intro h
      rw [h] at hlen
      exact absurd hlen (by decide)
    have hdlen : s.data.length = 4 := hlen
    have hlow : (jsToLower s).length = 4 := by
      show (s.data.map Char.toLower).length = 4
      rw [List.length_map]
      exact hdlen
    have hres : jsToLower s ∉ reservedWords := by
      intro hmem
      simp only [reservedWords, List.mem_cons, List.not_mem_nil, or_false] at hmem
      rcases hmem with h|h|h|h|h|h <;> rw [h] at hlow <;> exact absurd hlow (by decide)
    simp [validateShortcode, hne, hlen, halnum, hres]
  · intro s hlen halnum
    have hne : ¬ s = "" := by
      intro h
      rw [h] at hlen
      exact absurd hlen (by decide)
    have hdlen : s.data.length = 10 := hlen
    have hlow : (jsToLower s).length = 10 := by
      show (s.data.map Char.toLower).length = 10
      rw [List.length_map]
      exact hdlen
    have hres : jsToLower s ∉ reservedWords := by
      intro hmem
      simp only [reservedWords, List.mem_cons, List.not_mem_nil, or_false] at hmem
      rcases hmem with h|h|h|h|h|h <;> rw [h] at hlow <;> exact absurd hlow (by decide)
    simp [validateShortcode, hne, hlen, halnum, hres]

/-- Witness for C9 at concrete inputs: "abc" and "abcdefghijk" are
rejected, "abcd" and "abcdefghij" are accepted. -/
theorem validation_boundaries_witness :
    (validateShortcode (some "abc")).isValid = false ∧
    (validateShortcode (some "abcdefghijk")).isValid = false ∧
    (validateShortcode (some "abcd")).isValid = true ∧
    (validateShortcode (some "abcdefghij")).isValid = true :=
  ⟨validation_boundaries.1 "abc" (by decide),
   validation_boundaries.2.1 "abcdefghijk" (by decide),
   validation_boundaries.2.2.1 "abcd" (by decide) (by decide),
   validation_boundaries.2.2.2.1 "abcdefghij" (by decide) (by decide)⟩

/-- C10 counterexample: the raw input " https://example.com" contains a
whitespace character, yet `validateUrl` accepts it and returns the
trimmed URL: the source trims before its space check, so leading and
trailing whitespace never causes a failure — refuting the claim that
any whitespace anywhere in the input fails. -/
theorem validateUrl_whitespace_counterexample :
    " https://example.com".data.contains ' ' = true ∧
    (validateUrl " https://example.com").isValid = true ∧
    (validateUrl " https://example.com").normalizedUrl =
      some "https://example.com" := by
  refine ⟨by decide, by decide, by decide⟩

/-- C10 amended: `validateUrl` fails for every raw input whose trimmed
form still contains a space character; whitespace that is only leading
or trailing is removed by the trim and cannot cause a failure. -/
theorem validateUrl_space_rejected (url : String)
    (h : (jsTrim url).data.contains ' ' = true) :
    (validateUrl url).isValid = false := by
  have hne : ¬ url = "" := by
    intro he
    rw [he] at h
    exact absurd h (by decide)
  have hm : ' ' ∈ (jsTrim url).data := by simpa using h
  simp [validateUrl, hne, hm]

/-- Witness for the amended C10 at a concrete input: an interior space
survives the trim and "https://e x.com" is rejected. -/
theorem validateUrl_space_rejected_witness :
    (jsTrim "https://e x.com").data.contains ' ' = true ∧
    (validateUrl "https://e x.com").isValid = false :=
  ⟨by decide, validateUrl_space_rejected "https://e x.com" (by decide)⟩
